import Mathlib

/-!
Verification of the NeoUnity test-coverage analysis tools.

This file embeds the core logic of `detailed_method_mapping.py`
(method extraction, name normalization, method matching, file-pair
analysis) and `test_coverage_analysis.py` (categorization, missing-file
detection, category rollups) as executable Lean definitions over
`List Char` / `String`, and proves or refutes the specified properties.

Modelling conventions:
- Python strings are `String` / `List Char`; dicts that are iterated in
  insertion order are association lists.
- Python `str.lower` is modelled for ASCII (the inputs are source-code
  identifiers and paths).
- Python `round(x, k)` on floats is not modelled; ratio metrics are kept
  as exact rationals.  The claims under study only concern the choice of
  value at a zero denominator, where rounding is the identity.
- Python `float('inf')` is modelled by the distinguished value
  `RatioVal.inf`.
-/

namespace NeoUnity

/-- ASCII lower-casing of one character, as Python `str.lower` acts on ASCII. -/
def lowerC (c : Char) : Char :=
  if 65 ≤ c.toNat ∧ c.toNat ≤ 90 then Char.ofNat (c.toNat + 32) else c

/-- Lower-case a character list. -/
def lowerL (l : List Char) : List Char := l.map lowerC

/-- Python substring test `a in b` for character lists. -/
def isSubL (a : List Char) : List Char → Bool
  | [] => a.isEmpty
  | b :: t => a.isPrefixOf (b :: t) || isSubL a t

/-- Embeds `if name.startswith('test'): name = name[4:]`
from `normalize_test_name` (detailed_method_mapping.py line 113). -/
def dropTestPre (l : List Char) : List Char :=
  if "test".data.isPrefixOf l then l.drop 4 else l

/-- Embeds one iteration of the suffix loop body
`if name.endswith(suffix): name = name[:-len(suffix)]` (line 118). -/
def dropSuffix1 (suf : List Char) (l : List Char) : List Char :=
  if suf.isSuffixOf l then l.take (l.length - suf.length) else l

/-- Embeds the suffix loop `for suffix in ['_test', 'test', '_tests', 'tests']`
of `normalize_test_name` (lines 117-119).  Note the Python loop has no
`break`: every suffix in the list is tried against the current remainder. -/
def suffixPass (l : List Char) : List Char :=
  ["_test".data, "test".data, "_tests".data, "tests".data].foldl
    (fun n s => dropSuffix1 s n) l

/-- Embeds `''.join(name.split('_'))` (line 122): removes every underscore. -/
def stripUnders (l : List Char) : List Char := l.filter (fun c => c != '_')

/-- Embeds `normalize_test_name` (detailed_method_mapping.py lines 109-122). -/
def normalize_test_name (s : String) : String :=
  String.mk (stripUnders (suffixPass (dropTestPre (lowerL s.data))))

/-- A method record as consumed by the matcher: the matcher only reads the
`name` key of the Python dict; `line` stands for the rest of the record
and gives records their identity. -/
structure MethodRecord where
  name : String
  line : Nat
deriving DecidableEq, Repr

/-- Embeds the first (`Direct name matching`) loop of
`find_matching_c_sharp_method` (lines 129-132). -/
def exactLoop (sn : String) : List MethodRecord → Option MethodRecord
  | [] => none
  | c :: rest =>
    if normalize_test_name c.name == sn then some c else exactLoop sn rest

/-- Embeds the second (`Partial matching`) loop of
`find_matching_c_sharp_method` (lines 135-138). -/
def subLoop (sn : String) : List MethodRecord → Option MethodRecord
  | [] => none
  | c :: rest =>
    let cn := normalize_test_name c.name
    if isSubL sn.data cn.data || isSubL cn.data sn.data then some c
    else subLoop sn rest

/-- Embeds `find_matching_c_sharp_method` (lines 124-140).  The returned
pair carries the Python `match_type` string and the matched method. -/
def find_matching_c_sharp_method (swift : MethodRecord) (cs : List MethodRecord) :
    Option (String × MethodRecord) :=
  let sn := normalize_test_name swift.name
  match exactLoop sn cs with
  | some m => some ("exact", m)
  | none =>
    match subLoop sn cs with
    | some m => some ("partial", m)
    | none => none

/-- One entry of `analysis['matched_methods']` (lines 161-165). -/
structure MatchedEntry where
  swift : MethodRecord
  csharp : MethodRecord
  match_type : String
deriving DecidableEq, Repr

/-- The analysis dict produced by `analyze_file_pair` (lines 142-185).
`coverage_percentage` and `enhancement_factor` are exact rationals
(Python's float rounding to 1 resp. 2 digits is not modelled). -/
structure FilePairAnalysis where
  matched_methods : List MatchedEntry
  unmatched_swift : List MethodRecord
  extra_csharp : List MethodRecord
  coverage_percentage : ℚ
  enhancement_factor : ℚ
  exact_matches : Nat
  substr_matches : Nat
  missing_methods : Nat
  enhancement_methods : Nat
deriving DecidableEq, Repr

/-- Embeds the `for swift_method in swift_methods` loop of
`analyze_file_pair` (lines 158-168), producing the matched list and the
unmatched list in declaration order. -/
def matchLoop (cs : List MethodRecord) : List MethodRecord →
    List MatchedEntry × List MethodRecord
  | [] => ([], [])
  | sm :: rest =>
    let r := matchLoop cs rest
    match find_matching_c_sharp_method sm cs with
    | some tm => (⟨sm, tm.2, tm.1⟩ :: r.1, r.2)
    | none => (r.1, sm :: r.2)

/-- Embeds `analyze_file_pair` (lines 142-185). -/
def analyze_file_pair (swift_methods csharp_methods : List MethodRecord) :
    FilePairAnalysis :=
  let mu := matchLoop csharp_methods swift_methods
  let matched := mu.1
  let unmatched := mu.2
  let matched_cs_names := matched.map (fun e => e.csharp.name)
  let extra := csharp_methods.filter (fun c => !(matched_cs_names.contains c.name))
  { matched_methods := matched
    unmatched_swift := unmatched
    extra_csharp := extra
    coverage_percentage :=
      if swift_methods.isEmpty then 0
      else ((matched.length : ℚ) / (swift_methods.length : ℚ)) * 100
    enhancement_factor :=
      if swift_methods.isEmpty then 0
      else (csharp_methods.length : ℚ) / (swift_methods.length : ℚ)
    exact_matches := (matched.filter (fun e => e.match_type == "exact")).length
    substr_matches := (matched.filter (fun e => e.match_type == "partial")).length
    missing_methods := unmatched.length
    enhancement_methods := extra.length }

/-! Extraction of Swift test methods (`extract_detailed_test_methods` with
`is_swift=True`, detailed_method_mapping.py lines 12-57).  The declaration
pattern `(?:public\s+)?func\s+(test\w+)\s*\([^)]*\)(?:\s+async)?(?:\s+throws)?\s*\x7b`
is embedded as an anchored matcher; `re.finditer` is embedded as a
left-to-right scan resuming after each match. -/

/-- Python regex `\s` on ASCII text. -/
def isWsChar (c : Char) : Bool :=
  c == ' ' || c == '\t' || c == '\n' || c == '\r' || c == '\x0b' || c == '\x0c'

/-- Python regex `\w` on ASCII text. -/
def isWordChar (c : Char) : Bool := c.isAlphanum || c == '_'

/-- Anchored literal: consumes `lit` if it heads `s`. -/
def litP (lit s : List Char) : Option Nat :=
  if lit.isPrefixOf s then some lit.length else none

/-- Anchored `\s+` (greedy, one or more). -/
def ws1P (s : List Char) : Option Nat :=
  let k := (s.takeWhile isWsChar).length
  if k == 0 then none else some k

/-- Anchored `\s*` (greedy). -/
def wsStar (s : List Char) : Nat := (s.takeWhile isWsChar).length

/-- Anchored `\w+` (greedy, one or more). -/
def word1P (s : List Char) : Option Nat :=
  let k := (s.takeWhile isWordChar).length
  if k == 0 then none else some k

/-- Anchored `\s*\x7b` : optional whitespace then an opening brace. -/
def matchBraceEnd (s : List Char) : Option Nat :=
  let k := wsStar s
  match s.drop k with
  | '{' :: _ => some (k + 1)
  | _ => none

/-- The `\s+throws` alternative inside `(?:\s+throws)?\s*\x7b`. -/
def tryThrows (s : List Char) : Option Nat :=
  match ws1P s with
  | some w =>
    match litP "throws".data (s.drop w) with
    | some _ =>
      match matchBraceEnd (s.drop (w + 6)) with
      | some r => some (w + 6 + r)
      | none => none
    | none => none
  | none => none

/-- Anchored `(?:\s+throws)?\s*\x7b` with regex backtracking: prefer the
`throws` branch, fall back to the bare brace. -/
def matchThrowsTail (s : List Char) : Option Nat :=
  match tryThrows s with
  | some r => some r
  | none => matchBraceEnd s

/-- The `\s+async` alternative inside `(?:\s+async)?(?:\s+throws)?\s*\x7b`. -/
def tryAsync (s : List Char) : Option Nat :=
  match ws1P s with
  | some w =>
    match litP "async".data (s.drop w) with
    | some _ =>
      match matchThrowsTail (s.drop (w + 5)) with
      | some r => some (w + 5 + r)
      | none => none
    | none => none
  | none => none

/-- Anchored `(?:\s+async)?(?:\s+throws)?\s*\x7b` with backtracking. -/
def matchTail (s : List Char) : Option Nat :=
  match tryAsync s with
  | some r => some r
  | none => matchThrowsTail s

/-- Anchored match of the whole Swift declaration pattern at the head of
`s`.  Returns the matched length and the capture group `test\w+`.
The optional `public\s+` group cannot force backtracking: when it is
present but `func` does not follow, the bare `func` cannot match either,
because the text starts with `public`. -/
def matchFrom (s : List Char) : Option (Nat × List Char) :=
  let p0 :=
    match litP "public".data s with
    | some _ =>
      match ws1P (s.drop 6) with
      | some w => 6 + w
      | none => 0
    | none => 0
  let s0 := s.drop p0
  match litP "func".data s0 with
  | none => none
  | some _ =>
    match ws1P (s0.drop 4) with
    | none => none
    | some w1 =>
      let s2 := s0.drop (4 + w1)
      match litP "test".data s2 with
      | none => none
      | some _ =>
        match word1P (s2.drop 4) with
        | none => none
        | some wd =>
          let nameChars := "test".data ++ (s2.drop 4).take wd
          let s4 := s2.drop (4 + wd)
          let sp := wsStar s4
          match s4.drop sp with
          | '(' :: s6 =>
            let inner := (s6.takeWhile (fun c => c != ')')).length
            match s6.drop inner with
            | ')' :: s8 =>
              match matchTail s8 with
              | none => none
              | some tl =>
                some (p0 + 4 + w1 + 4 + wd + sp + 1 + inner + 1 + tl, nameChars)
            | _ => none
          | _ => none

/-- Fuelled `re.finditer` scan: try an anchored match at each position,
resume after each (always non-empty) match.  One unit of fuel is spent
per character position, so `length` fuel is exact. -/
def scanMatchesFuel : Nat → List Char → Nat → List (Nat × Nat × List Char)
  | 0, _, _ => []
  | _, [], _ => []
  | fuel + 1, s@(_ :: rest), idx =>
    match matchFrom s with
    | some (len, nm) =>
      if 0 < len then (idx, idx + len, nm) :: scanMatchesFuel fuel (s.drop len) (idx + len)
      else scanMatchesFuel fuel rest (idx + 1)
    | none => scanMatchesFuel fuel rest (idx + 1)

/-- All matches of the Swift declaration pattern, as (start, end, name). -/
def scanMatches (content : List Char) : List (Nat × Nat × List Char) :=
  scanMatchesFuel content.length content 0

/-- Embeds the brace-depth scan of lines 31-42: starting at absolute index
`i` with running depth `depth`, returns the absolute index one past the
brace that returns the depth to zero, or `none` when end-of-text is
reached first. -/
def braceScan : List Char → Nat → Int → Option Nat
  | [], _, _ => none
  | c :: rest, i, depth =>
    if c == '{' then braceScan rest (i + 1) (depth + 1)
    else if c == '}' then
      if depth - 1 == 0 then some (i + 1) else braceScan rest (i + 1) (depth - 1)
    else braceScan rest (i + 1) depth

/-- Number of newline characters in `l` (Python `str.count('\n')`). -/
def countNl (l : List Char) : Nat := (l.filter (fun c => c == '\n')).length

/-- One extracted Swift method record (`test_info`, lines 47-55). -/
structure SwiftMethodInfo where
  name : String
  line : Nat
  body_length : Nat
  tests_async : Bool
  has_assertions : Bool
  mock_usage : Bool
  error_testing : Bool
deriving DecidableEq, Repr

/-- Builds the `test_info` dict for one regex match (lines 25-57):
the body scan starts at `match.end() - 1` (the opening brace); when the
scan never returns to depth zero, `method_end` keeps its initial value
`pos`, so the record is emitted with the text scanned up to the brace. -/
def mkSwiftInfo (content : List Char) (mstart mend : Nat) (nameChars : List Char) :
    SwiftMethodInfo :=
  let pos := mend - 1
  let method_end :=
    match braceScan (content.drop pos) pos 0 with
    | some e => e
    | none => pos
  let body := (content.take method_end).drop mstart
  { name := String.mk nameChars
    line := countNl (content.take mstart) + 1
    body_length := countNl body + 1
    tests_async := isSubL "async".data body || isSubL "await".data body
    has_assertions := isSubL "XCTAssert".data body || isSubL "XCTAssertEqual".data body
    mock_usage := isSubL "mockUrlSession".data body || isSubL "Mock".data body
    error_testing := isSubL "XCTAssertThrowsError".data body ||
      isSubL "throws".data (lowerL nameChars) }

/-- Embeds `extract_detailed_test_methods(file_path, is_swift=True)`
(lines 12-57) as a total function of the file content.  The Python scan
cannot raise: the `try`/`except` in the source only guards the file read,
which is outside this function's input. -/
def extract_detailed_test_methods_swift (content : String) : List SwiftMethodInfo :=
  (scanMatches content.data).map (fun m => mkSwiftInfo content.data m.1 m.2.1 m.2.2)

/-! Corpus-level analysis (`test_coverage_analysis.py`). -/

/-- The ordered category keyword list (`self.categories` keys, lines 17-29). -/
def categoriesKeys : List String :=
  ["contract", "crypto", "protocol", "script", "serialization", "transaction",
   "types", "wallet", "witnessrule", "helpers", "core"]

/-- Embeds the category assignment of `categorize_tests` (lines 86-91):
first keyword that is a substring of the lower-cased path wins,
otherwise `other`. -/
def categoryOf (filePath : String) : String :=
  match categoriesKeys.find? (fun k => isSubL k.data (lowerL filePath.data)) with
  | some k => k
  | none => "other"

/-- Append an entry to its category bucket, creating the bucket at the end
on first use (insertion-ordered `defaultdict`). -/
def insertAssoc (acc : List (String × List (String × List String))) (cat : String)
    (entry : String × List String) : List (String × List (String × List String)) :=
  if acc.any (fun p => p.1 == cat) then
    acc.map (fun p => if p.1 == cat then (p.1, p.2 ++ [entry]) else p)
  else acc ++ [(cat, [entry])]

/-- Embeds `categorize_tests` (lines 81-95): buckets a file-to-methods
mapping by category, preserving insertion order. -/
def categorize_tests (d : List (String × List String)) :
    List (String × List (String × List String)) :=
  d.foldl (fun acc fm => insertAssoc acc (categoryOf fm.1) fm) []

/-- Final path component (text after the last `/`). -/
def lastComponent (l : List Char) : List Char :=
  l.foldl (fun acc c => if c == '/' then [] else acc ++ [c]) []

/-- Index of the last `.` in `l`, if any (Python `str.rfind('.')`). -/
def rfindDot (l : List Char) : Option Nat :=
  (l.foldl (fun st c => (st.1 + 1, if c == '.' then some st.1 else st.2))
    ((0 : Nat), (none : Option Nat))).2

/-- `pathlib.Path(f).stem`: final component without its extension; the
extension starts at the last dot provided that dot is neither the first
nor the last character of the component. -/
def pathStem (l : List Char) : List Char :=
  let nm := lastComponent l
  match rfindDot nm with
  | some i => if 0 < i ∧ i < nm.length - 1 then nm.take i else nm
  | none => nm

/-- Python `str.replace('Tests', '')`: removes every non-overlapping
occurrence of `Tests`, scanning left to right. -/
def replaceTests : List Char → List Char
  | [] => []
  | 'T' :: 'e' :: 's' :: 't' :: 's' :: rest => replaceTests rest
  | c :: rest => c :: replaceTests rest

/-- Embeds the file identifier `Path(f).stem.replace('Tests', '')` used by
`find_missing_coverage` (lines 119-120, 126). -/
def stemId (f : String) : String := String.mk (replaceTests (pathStem f.data))

/-- First-occurrence deduplication; stands for building a Python `set`
from a list (iteration order of a `set` is unspecified, so every claim
about these lists is stated up to membership). -/
def firstUniq (l : List String) : List String :=
  l.foldl (fun acc x => if acc.contains x then acc else acc ++ [x]) []

/-- Embeds `swift_file_names - csharp_file_names` (lines 119-122): the set
of reference stem identifiers absent from the target stem identifiers. -/
def missingStemsFor (swiftFiles csharpFiles : List (String × List String)) :
    List String :=
  let sids := firstUniq (swiftFiles.map (fun f => stemId f.1))
  let cids := csharpFiles.map (fun f => stemId f.1)
  sids.filter (fun s => !(cids.contains s))

/-- A ratio value that may be Python's `float('inf')`. -/
inductive RatioVal where
  | val (q : ℚ)
  | inf
deriving DecidableEq, Repr

/-- One entry of `missing_coverage['missing_categories']` (lines 112-116). -/
structure MissingCategoryEntry where
  category : String
  files : List String
  test_count : Nat
deriving DecidableEq, Repr

/-- One entry of `missing_coverage['missing_files']` (lines 127-132). -/
structure MissingFileEntry where
  category : String
  file : String
  missing_methods : Nat
  methods : List String
deriving DecidableEq, Repr

/-- One entry of `missing_coverage['c_sharp_enhancements']` (lines 141-146).
`enhancement_factor` is `csharp_total / swift_total` when `swift_total > 0`
and `float('inf')` otherwise (line 145); the 2-digit float rounding is not
modelled. -/
structure EnhancementEntry where
  category : String
  swift_tests : Nat
  csharp_tests : Nat
  enhancement_factor : RatioVal
deriving DecidableEq, Repr

/-- The result dict of `find_missing_coverage` (lines 97-148); the unused
`partial_coverage` key (never written by the source) is omitted. -/
structure MissingCoverage where
  missing_files : List MissingFileEntry
  missing_categories : List MissingCategoryEntry
  c_sharp_enhancements : List EnhancementEntry
deriving DecidableEq, Repr

/-- Bucket lookup in a categorized mapping (`categorized[category]`). -/
def lookupCat (l : List (String × List (String × List String))) (k : String) :
    List (String × List String) :=
  match l.find? (fun p => p.1 == k) with
  | some p => p.2
  | none => []

/-- Total method count of a category bucket
(`sum(len(methods) for methods in files.values())`). -/
def methodCountAll (files : List (String × List String)) : Nat :=
  (files.map (fun p => p.2.length)).sum

/-- Embeds `find_missing_coverage` (lines 97-148) as a function of the two
file-to-methods mappings (`self.swift_tests`, `self.csharp_tests`). -/
def find_missing_coverage (swift_tests csharp_tests : List (String × List String)) :
    MissingCoverage :=
  let swC := categorize_tests swift_tests
  let csC := categorize_tests csharp_tests
  let missing_categories :=
    (swC.filter (fun p => !(csC.any (fun q => q.1 == p.1)))).map
      (fun p => { category := p.1, files := p.2.map (fun f => f.1),
                  test_count := methodCountAll p.2 : MissingCategoryEntry })
  let missing_files :=
    (swC.filter (fun p => csC.any (fun q => q.1 == p.1))).flatMap (fun p =>
      let csFiles := lookupCat csC p.1
      (missingStemsFor p.2 csFiles).flatMap (fun mid =>
        (p.2.filter (fun f => stemId f.1 == mid)).map (fun f =>
          { category := p.1, file := f.1, missing_methods := f.2.length,
            methods := f.2 : MissingFileEntry })))
  let enh :=
    (csC.filter (fun p => swC.any (fun q => q.1 == p.1))).filterMap (fun p =>
      let swiftFiles := lookupCat swC p.1
      let csharp_total := methodCountAll p.2
      let swift_total := methodCountAll swiftFiles
      if csharp_total > swift_total then
        some { category := p.1, swift_tests := swift_total,
               csharp_tests := csharp_total,
               enhancement_factor :=
                 if swift_total > 0 then
                   RatioVal.val ((csharp_total : ℚ) / (swift_total : ℚ))
                 else RatioVal.inf : EnhancementEntry }
      else none)
  { missing_files := missing_files, missing_categories := missing_categories,
    c_sharp_enhancements := enh }

/-- Embeds the category status of `generate_comprehensive_report` line 189:
`"COMPLETE" if csharp_count >= swift_count and csharp_files else
"MISSING" if not csharp_files else "PARTIAL"` (the decorative emoji
prefixes of the source strings are omitted). -/
def category_status (swiftFiles csharpFiles : List (String × List String)) : String :=
  let swift_count := methodCountAll swiftFiles
  let csharp_count := methodCountAll csharpFiles
  if csharp_count ≥ swift_count ∧ csharpFiles ≠ [] then "COMPLETE"
  else if csharpFiles = [] then "MISSING"
  else "PARTIAL"

/-- Modelled from the spec (section 4.2), for comparison with the code:
a suffix pass that drops only the FIRST suffix in
`['_test', 'test', '_tests', 'tests']` that matches, exactly once. -/
def suffixPassSingle (l : List Char) : List Char :=
  match ["_test".data, "test".data, "_tests".data, "tests".data].find?
      (fun s => s.isSuffixOf l) with
  | some s => l.take (l.length - s.length)
  | none => l

/-- Modelled from the spec (section 4.2), for comparison with the code:
the normalizer as described by claim C2, with a single suffix drop. -/
def normalize_single_suffix_spec (s : String) : String :=
  String.mk (stripUnders (suffixPassSingle (dropTestPre (lowerL s.data))))

/-- Modelled from the spec (section 4.5), for comparison with the code:
the file identifier with the `Tests` suffix stripped from the END only. -/
def stemIdSuffixSpec (f : String) : String :=
  String.mk (dropSuffix1 "Tests".data (pathStem f.data))

/-- Modelled from the spec (section 4.5), for comparison with the code:
missing-stem detection using the suffix-stripped identifiers. -/
def missingStemsSuffixSpec (swiftFiles csharpFiles : List (String × List String)) :
    List String :=
  let sids := firstUniq (swiftFiles.map (fun f => stemIdSuffixSpec f.1))
  let cids := csharpFiles.map (fun f => stemIdSuffixSpec f.1)
  sids.filter (fun s => !(cids.contains s))

/-- The counterpart condition named by claim C8: every reference file's
stem identifier occurs among the target files' stem identifiers. -/
def everyRefHasCounterpart (swiftFiles csharpFiles : List (String × List String)) :
    Bool :=
  swiftFiles.all (fun f => (csharpFiles.map (fun g => stemId g.1)).contains (stemId f.1))

end NeoUnity

namespace NeoUnity

/-! Helper lemmas. -/

/-- Characters below the surrogate range round-trip through `Char.ofNat`. -/
theorem toNat_ofNat_small {n : Nat} (h : n < 55296) : (Char.ofNat n).toNat = n := by
  have hv : n.isValidChar := Or.inl h
  simp [Char.ofNat, hv, Char.ofNatAux, Char.toNat, UInt32.toNat]

/-- Lower-casing a character twice is the same as once. -/
theorem lowerC_fix (c : Char) : lowerC (lowerC c) = lowerC c := by
  by_cases h : 65 ≤ c.toNat ∧ c.toNat ≤ 90
  · have h32 : (Char.ofNat (c.toNat + 32)).toNat = c.toNat + 32 :=
      toNat_ofNat_small (by omega)
    simp only [lowerC, if_pos h, h32]
    rw [if_neg (by omega)]
  · simp only [lowerC, if_neg h]

/-- The exact-match loop is a first-hit search. -/
theorem exactLoop_eq_find? (sn : String) (cs : List MethodRecord) :
    exactLoop sn cs = cs.find? (fun c => normalize_test_name c.name == sn) := by
  induction cs with
  | nil => rfl
  | cons c rest ih =>
    rw [List.find?_cons]
    cases h : (normalize_test_name c.name == sn) with
    | true => simp [exactLoop, h]
    | false => simp [exactLoop, h, ih]

/-- The containment-match loop is a first-hit search. -/
theorem subLoop_eq_find? (sn : String) (cs : List MethodRecord) :
    subLoop sn cs = cs.find? (fun c =>
      isSubL sn.data (normalize_test_name c.name).data ||
      isSubL (normalize_test_name c.name).data sn.data) := by
  induction cs with
  | nil => rfl
  | cons c rest ih =>
    rw [List.find?_cons]
    cases h : (isSubL sn.data (normalize_test_name c.name).data ||
        isSubL (normalize_test_name c.name).data sn.data) with
    | true => simp [subLoop, h]
    | false => simp [subLoop, h, ih]

/-- Unfolding of the normalizer's output characters. -/
theorem normalize_data (s : String) :
    (normalize_test_name s).data =
      stripUnders (suffixPass (dropTestPre (lowerL s.data))) := rfl

/-- Dropping a suffix only removes characters. -/
theorem dropSuffix1_subset (s l : List Char) : dropSuffix1 s l ⊆ l := by
  unfold dropSuffix1
  split
  · exact List.take_subset _ _
  · exact fun _ h => h

/-- The whole suffix pass only removes characters. -/
theorem suffixPass_subset (l : List Char) : suffixPass l ⊆ l := by
  intro c hc
  simp only [suffixPass, List.foldl_cons, List.foldl_nil] at hc
  exact dropSuffix1_subset _ _ (dropSuffix1_subset _ _ (dropSuffix1_subset _ _
    (dropSuffix1_subset _ _ hc)))

/-- Prefix stripping only removes characters. -/
theorem dropTestPre_subset (l : List Char) : dropTestPre l ⊆ l := by
  unfold dropTestPre
  split
  · exact List.drop_subset _ _
  · exact fun _ h => h

/-- Membership in the underscore filter. -/
theorem mem_stripUnders {c : Char} {l : List Char} :
    c ∈ stripUnders l ↔ c ∈ l ∧ c ≠ '_' := by
  simp [stripUnders, List.mem_filter]

/-- Every character of a normalized name is fixed by lower-casing. -/
theorem normalize_chars_lower (s : String) :
    ∀ c ∈ (normalize_test_name s).data, lowerC c = c := by
  intro c hc
  rw [normalize_data] at hc
  have h1 : c ∈ suffixPass (dropTestPre (lowerL s.data)) := (mem_stripUnders.mp hc).1
  have h2 : c ∈ dropTestPre (lowerL s.data) := suffixPass_subset _ h1
  have h3 : c ∈ lowerL s.data := dropTestPre_subset _ h2
  obtain ⟨a, _, rfl⟩ := List.mem_map.mp h3
  exact lowerC_fix a

/-- A normalized name contains no underscore. -/
theorem underscore_not_mem_normalize (s : String) :
    '_' ∉ (normalize_test_name s).data := by
  rw [normalize_data]
  intro h
  exact (mem_stripUnders.mp h).2 rfl

/-- A pointwise-fixed list is fixed by lower-casing. -/
theorem lowerL_eq_self {l : List Char} (h : ∀ c ∈ l, lowerC c = c) :
    lowerL l = l := by
  induction l with
  | nil => rfl
  | cons a t ih =>
    simp only [lowerL, List.map_cons, List.cons.injEq]
    refine ⟨h a (by simp), ?_⟩
    exact ih (fun x hx => h x (by simp [hx]))

/-- Filtering underscores out of an underscore-free list is the identity. -/
theorem stripUnders_eq_self {l : List Char} (h : '_' ∉ l) : stripUnders l = l := by
  apply List.filter_eq_self.mpr
  intro a ha
  simp only [bne_iff_ne, ne_eq]
  intro he
  exact h (he ▸ ha)

/-- A candidate suffix containing a character absent from the list is not
a suffix of it. -/
theorem isSuffixOf_eq_false_of_not_mem {pre l : List Char} {a : Char}
    (ha : a ∈ pre) (hl : a ∉ l) : pre.isSuffixOf l = false := by
  cases hb : pre.isSuffixOf l
  · rfl
  · exact absurd ((List.isSuffixOf_iff_suffix.mp hb).subset ha) hl

/-- Non-matching suffix step is the identity. -/
theorem dropSuffix1_of_false {s l : List Char} (h : s.isSuffixOf l = false) :
    dropSuffix1 s l = l := by
  simp [dropSuffix1, h]

/-- The suffix pass fixes an underscore-free list ending in none of the
bare suffixes. -/
theorem suffixPass_eq_self {l : List Char} (hu : '_' ∉ l)
    (h2 : "test".data.isSuffixOf l = false)
    (h3 : "tests".data.isSuffixOf l = false) : suffixPass l = l := by
  have ha : "_test".data.isSuffixOf l = false :=
    isSuffixOf_eq_false_of_not_mem (by decide) hu
  have hb : "_tests".data.isSuffixOf l = false :=
    isSuffixOf_eq_false_of_not_mem (by decide) hu
  simp only [suffixPass, List.foldl_cons, List.foldl_nil]
  rw [dropSuffix1_of_false ha, dropSuffix1_of_false h2, dropSuffix1_of_false hb,
    dropSuffix1_of_false h3]

/-- The reference loop of `analyze_file_pair` pairs each reference method
with the result of one matcher call. -/
theorem matchLoop_eq (cs swift : List MethodRecord) :
    matchLoop cs swift =
      (swift.filterMap (fun sm => (find_matching_c_sharp_method sm cs).map
        (fun tm => ⟨sm, tm.2, tm.1⟩)),
       swift.filter (fun sm => (find_matching_c_sharp_method sm cs).isNone)) := by
  induction swift with
  | nil => rfl
  | cons sm rest ih =>
    simp only [matchLoop, ih, List.filterMap_cons, List.filter_cons]
    cases h : find_matching_c_sharp_method sm cs <;> simp [h]

/-- Matched and unmatched reference methods count up to the whole list. -/
theorem length_filterMap_add_filter (cs swift : List MethodRecord) :
    (swift.filterMap (fun sm => (find_matching_c_sharp_method sm cs).map
      (fun tm => (⟨sm, tm.2, tm.1⟩ : MatchedEntry)))).length +
    (swift.filter (fun sm => (find_matching_c_sharp_method sm cs).isNone)).length =
      swift.length := by
  induction swift with
  | nil => rfl
  | cons sm rest ih =>
    simp only [List.filterMap_cons, List.filter_cons]
    cases h : find_matching_c_sharp_method sm cs <;> simp [h] <;> omega

/-- Membership through the set-building fold of `firstUniq`. -/
theorem mem_firstUniq_aux (l acc : List String) (s : String) :
    (s ∈ l.foldl (fun acc x => if acc.contains x then acc else acc ++ [x]) acc) ↔
      s ∈ acc ∨ s ∈ l := by
  induction l generalizing acc with
  | nil => simp
  | cons a t ih =>
    simp only [List.foldl_cons]
    rw [ih]
    by_cases h : acc.contains a
    · rw [if_pos h]
      constructor
      · rintro (hs | hs)
        · exact Or.inl hs
        · exact Or.inr (by simp [hs])
      · rintro (hs | hs)
        · exact Or.inl hs
        · rcases List.mem_cons.mp hs with rfl | hs
          · exact Or.inl (by simpa [List.contains] using h)
          · exact Or.inr hs
    · rw [if_neg h]
      simp only [List.mem_append, List.mem_singleton, List.mem_cons]
      tauto

/-- `firstUniq` preserves membership. -/
theorem mem_firstUniq (l : List String) (s : String) :
    s ∈ firstUniq l ↔ s ∈ l := by
  unfold firstUniq
  rw [mem_firstUniq_aux]
  simp

end NeoUnity

namespace NeoUnity

/-- C1: the matcher evaluates the two tiers in fixed order with first hit
winning — it returns the first candidate (in extraction order) whose
normalized name equals the normalized reference name, and only when no
such candidate exists does it return the first candidate related by
substring containment in either direction; in particular, for reference
`testTransferAsync` and candidates `[TestTransferAsync,
TestTransferFailsAsync]` it returns an EXACT match to the first
candidate, never the second. -/
theorem matcher_two_tier_first_hit :
    (∀ (sm : MethodRecord) (cs : List MethodRecord),
      find_matching_c_sharp_method sm cs =
        match cs.find? (fun c =>
            normalize_test_name c.name == normalize_test_name sm.name) with
        | some m => some ("exact", m)
        | none =>
          match cs.find? (fun c =>
              isSubL (normalize_test_name sm.name).data (normalize_test_name c.name).data ||
              isSubL (normalize_test_name c.name).data (normalize_test_name sm.name).data) with
          | some m => some ("partial", m)
          | none => none) ∧
    find_matching_c_sharp_method ⟨"testTransferAsync", 1⟩
        [⟨"TestTransferAsync", 10⟩, ⟨"TestTransferFailsAsync", 20⟩] =
      some ("exact", ⟨"TestTransferAsync", 10⟩) := by
  constructor
  · intro sm cs
    simp only [find_matching_c_sharp_method, exactLoop_eq_find?, subLoop_eq_find?]
  · decide

/-- C2 counterexample: the suffix loop of `normalize_test_name` has no
`break`, so on `foo_test_test` it first drops `_test` and then drops
`test` from the already-stripped remainder, giving `foo`; dropping only
the first matching suffix, as the claim states, would give `footest`. -/
theorem normalize_double_suffix_strip_cex :
    normalize_test_name "foo_test_test" = "foo" ∧
    normalize_single_suffix_spec "foo_test_test" = "footest" ∧
    normalize_test_name "foo_test_test" ≠
      normalize_single_suffix_spec "foo_test_test" := by decide

/-- C2 amended: after lower-casing and prefix-stripping, each of the four
suffixes `_test`, `test`, `_tests`, `tests` is tried in that order
against the current remainder and dropped when it matches, so more than
one suffix can be removed in the single pass (a later suffix applies to
the already-stripped remainder); afterwards every underscore is removed.
On `foo_test_test` two suffixes are removed. -/
theorem normalize_suffix_pass_order :
    (∀ l : List Char, suffixPass l =
      dropSuffix1 "tests".data (dropSuffix1 "_tests".data
        (dropSuffix1 "test".data (dropSuffix1 "_test".data l)))) ∧
    (∀ s : String, normalize_test_name s =
      String.mk (stripUnders (dropSuffix1 "tests".data (dropSuffix1 "_tests".data
        (dropSuffix1 "test".data (dropSuffix1 "_test".data
          (dropTestPre (lowerL s.data)))))))) ∧
    normalize_test_name "foo_test_test" = "foo" := by
  refine ⟨fun l => ?_, fun s => ?_, by decide⟩
  · simp only [suffixPass, List.foldl_cons, List.foldl_nil]
  · simp only [normalize_test_name, suffixPass, List.foldl_cons, List.foldl_nil]

/-- C3 counterexample: the normalizer is not idempotent — on
`testtestfoo` one application gives `testfoo` (the `test` prefix is
stripped only once), and a second application strips again, giving
`foo`. -/
theorem normalize_not_idempotent_cex :
    normalize_test_name (normalize_test_name "testtestfoo") ≠
      normalize_test_name "testtestfoo" ∧
    normalize_test_name "testtestfoo" = "testfoo" ∧
    normalize_test_name (normalize_test_name "testtestfoo") = "foo" := by decide

/-- C3 amended: the normalizer is idempotent on every name whose
normalized form does not itself start with `test` and does not end with
`test` or `tests` — exactly the residual affixes a second pass could
strip (a normalized name can contain no underscore, so the underscored
suffixes can never re-fire). -/
theorem normalize_idempotent_of_stable (n : String)
    (h1 : "test".data.isPrefixOf (normalize_test_name n).data = false)
    (h2 : "test".data.isSuffixOf (normalize_test_name n).data = false)
    (h3 : "tests".data.isSuffixOf (normalize_test_name n).data = false) :
    normalize_test_name (normalize_test_name n) = normalize_test_name n := by
  have hlow : lowerL (normalize_test_name n).data = (normalize_test_name n).data :=
    lowerL_eq_self (normalize_chars_lower n)
  have hu : '_' ∉ (normalize_test_name n).data := underscore_not_mem_normalize n
  have hpre : dropTestPre (normalize_test_name n).data = (normalize_test_name n).data := by
    simp [dropTestPre, h1]
  show String.mk (stripUnders (suffixPass (dropTestPre
    (lowerL (normalize_test_name n).data)))) = normalize_test_name n
  rw [hlow, hpre, suffixPass_eq_self hu h2 h3, stripUnders_eq_self hu]

/-- C3 amended witness: `some_method` normalizes to `somemethod`, which
starts with no `test` prefix and ends in no `test`/`tests` suffix, and
normalizing twice equals normalizing once. -/
theorem normalize_idempotent_witness :
    ("test".data.isPrefixOf (normalize_test_name "some_method").data = false) ∧
    ("test".data.isSuffixOf (normalize_test_name "some_method").data = false) ∧
    ("tests".data.isSuffixOf (normalize_test_name "some_method").data = false) ∧
    normalize_test_name (normalize_test_name "some_method") =
      normalize_test_name "some_method" :=
  ⟨by decide, by decide, by decide,
   normalize_idempotent_of_stable "some_method" (by decide) (by decide) (by decide)⟩

end NeoUnity

namespace NeoUnity

/-- C4 counterexample: a target method can be claimed by two reference
methods in one file-pair analysis — with references `testFoo`, `testFoo2`
and the single target `TestFoo`, both produced MatchResults name the same
target record (the first exactly, the second by containment), because the
matcher always scans the full, unfiltered target list. -/
theorem target_claimed_twice_cex :
    ((analyze_file_pair [⟨"testFoo", 1⟩, ⟨"testFoo2", 2⟩]
        [⟨"TestFoo", 5⟩]).matched_methods.map (fun e => e.csharp)) =
      [⟨"TestFoo", 5⟩, ⟨"TestFoo", 5⟩] ∧
    (analyze_file_pair [⟨"testFoo", 1⟩, ⟨"testFoo2", 2⟩]
        [⟨"TestFoo", 5⟩]).matched_methods.map (fun e => e.match_type) =
      ["exact", "partial"] := by decide

/-- C4 amended: each reference method yields at most one MatchResult —
the matched list is exactly one optional entry per reference method in
extraction order, the unmatched list collects the references with no
match, and the two partition the reference list; a target method,
however, may be claimed by several reference methods, since
already-matched targets stay eligible. -/
theorem analyze_one_result_per_reference :
    ∀ (swift cs : List MethodRecord),
      (analyze_file_pair swift cs).matched_methods =
        swift.filterMap (fun sm => (find_matching_c_sharp_method sm cs).map
          (fun tm => ⟨sm, tm.2, tm.1⟩)) ∧
      (analyze_file_pair swift cs).unmatched_swift =
        swift.filter (fun sm => (find_matching_c_sharp_method sm cs).isNone) ∧
      (analyze_file_pair swift cs).matched_methods.length +
        (analyze_file_pair swift cs).unmatched_swift.length = swift.length := by
  intro swift cs
  have h := matchLoop_eq cs swift
  refine ⟨?_, ?_, ?_⟩
  · show (matchLoop cs swift).1 = _
    rw [h]
  · show (matchLoop cs swift).2 = _
    rw [h]
  · show (matchLoop cs swift).1.length + (matchLoop cs swift).2.length = _
    rw [h]
    exact length_filterMap_add_filter cs swift

/-- C5 counterexample: `tests` does not normalize to the empty string —
the prefix `test` is stripped first, leaving `s`, which no suffix then
matches. -/
theorem normalize_tests_not_empty_cex :
    normalize_test_name "tests" = "s" ∧ normalize_test_name "tests" ≠ "" := by decide

/-- C5 amended: any letter-casing of `test` normalizes to the empty
string while any letter-casing of `tests` normalizes to `s`; and the
matcher classifies a reference whose normalized name is empty as an
EXACT match against a target list containing any method whose normalized
name is empty, through the ordinary string-equality tier. -/
theorem normalize_empty_and_empty_exact :
    (∀ s : String, lowerL s.data = "test".data → normalize_test_name s = "") ∧
    (∀ s : String, lowerL s.data = "tests".data → normalize_test_name s = "s") ∧
    (∀ (sm : MethodRecord) (cs : List MethodRecord) (c : MethodRecord),
      normalize_test_name sm.name = "" → c ∈ cs →
      normalize_test_name c.name = "" →
      ∃ m, find_matching_c_sharp_method sm cs = some ("exact", m) ∧
        normalize_test_name m.name = "") := by
  refine ⟨fun s h => ?_, fun s h => ?_, fun sm cs c hsm hc hcn => ?_⟩
  · show String.mk (stripUnders (suffixPass (dropTestPre (lowerL s.data)))) = ""
    rw [h]
    rfl
  · show String.mk (stripUnders (suffixPass (dropTestPre (lowerL s.data)))) = "s"
    rw [h]
    rfl
  · have hfind : (cs.find? (fun x =>
        normalize_test_name x.name == normalize_test_name sm.name)).isSome = true := by
      apply List.find?_isSome.mpr
      refine ⟨c, hc, ?_⟩
      rw [hcn, hsm]
      rfl
    rcases Option.isSome_iff_exists.mp hfind with ⟨m, hm⟩
    have hpm : (normalize_test_name m.name == normalize_test_name sm.name) = true := by
      simpa using List.find?_some hm
    refine ⟨m, ?_, ?_⟩
    · simp only [find_matching_c_sharp_method, exactLoop_eq_find?, hm]
    · rw [eq_of_beq hpm, hsm]

/-- C5 amended witness: `TEST` normalizes to the empty string, `Tests`
normalizes to `s`, and the reference `Test` EXACT-matches the sole
target `TEST` through empty normalized names. -/
theorem normalize_empty_and_empty_exact_witness :
    normalize_test_name "TEST" = "" ∧
    normalize_test_name "Tests" = "s" ∧
    ∃ m, find_matching_c_sharp_method ⟨"Test", 1⟩ [⟨"TEST", 2⟩] =
      some ("exact", m) ∧ normalize_test_name m.name = "" :=
  ⟨normalize_empty_and_empty_exact.1 "TEST" (by decide),
   normalize_empty_and_empty_exact.2.1 "Tests" (by decide),
   normalize_empty_and_empty_exact.2.2 ⟨"Test", 1⟩ [⟨"TEST", 2⟩] ⟨"TEST", 2⟩
     (by decide) (by decide) (by decide)⟩

/-- C6: extraction is a total function of the source text — in
particular, on the unbalanced source `func testX() { b()`, where the
brace-depth scan reaches end-of-text before returning to depth zero, the
method record is still emitted (with the text scanned up to the opening
brace as its body), so extraction yields exactly one MethodRecord named
`testX` on line 1. -/
theorem extract_unbalanced_emits_record :
    extract_detailed_test_methods_swift "func testX() \x7b b()" =
      [⟨"testX", 1, 1, false, false, false, false⟩] := by decide

/-- C7 counterexample: a zero reference-method denominator does not
always yield 0 — in the corpus-level enhancement computation of
`find_missing_coverage`, a category whose reference files hold zero
methods while a target file holds one produces an enhancement entry with
`float('inf')` as its factor, not 0. -/
theorem enhancement_factor_inf_cex :
    (find_missing_coverage [("crypto/FooTests.swift", [])]
        [("Crypto/FooTests.cs", ["TestA"])]).c_sharp_enhancements =
      [⟨"crypto", 0, 1, RatioVal.inf⟩] ∧
    (RatioVal.inf : RatioVal) ≠ RatioVal.val 0 := by decide

/-- C7 amended: in the per-file-pair statistics a zero reference total
yields 0 for both the coverage percentage and the enhancement factor,
but the corpus-level category enhancement factor of
`find_missing_coverage` is `float('inf')` (not 0) when the category's
reference method total is 0: every enhancement entry (which exists only
when the target count exceeds the reference count) carries the ratio
when its reference total is positive and `float('inf')` when it is 0,
as in the concrete zero-reference category. -/
theorem zero_denominator_policy :
    (∀ cs : List MethodRecord,
      (analyze_file_pair [] cs).coverage_percentage = 0 ∧
      (analyze_file_pair [] cs).enhancement_factor = 0) ∧
    (∀ (sw cs : List (String × List String)) (e : EnhancementEntry),
      e ∈ (find_missing_coverage sw cs).c_sharp_enhancements →
        e.csharp_tests > e.swift_tests ∧
        e.enhancement_factor =
          (if e.swift_tests > 0 then
            RatioVal.val ((e.csharp_tests : ℚ) / (e.swift_tests : ℚ))
          else RatioVal.inf)) ∧
    (find_missing_coverage [("crypto/FooTests.swift", [])]
        [("Crypto/FooTests.cs", ["TestA"])]).c_sharp_enhancements.map
      (fun e => e.enhancement_factor) = [RatioVal.inf] := by
  refine ⟨fun cs => ?_, fun sw cs e he => ?_, by decide⟩
  · constructor <;> simp [analyze_file_pair]
  · have he' : e ∈ ((categorize_tests cs).filter
        (fun p => (categorize_tests sw).any (fun q => q.1 == p.1))).filterMap
        (fun p =>
          if methodCountAll p.2 >
              methodCountAll (lookupCat (categorize_tests sw) p.1) then
            some { category := p.1,
                   swift_tests := methodCountAll (lookupCat (categorize_tests sw) p.1),
                   csharp_tests := methodCountAll p.2,
                   enhancement_factor :=
                     if methodCountAll (lookupCat (categorize_tests sw) p.1) > 0 then
                       RatioVal.val ((methodCountAll p.2 : ℚ) /
                         (methodCountAll (lookupCat (categorize_tests sw) p.1) : ℚ))
                     else RatioVal.inf : EnhancementEntry }
          else none) := he
    rcases List.mem_filterMap.mp he' with ⟨p, hp, hfp⟩
    by_cases hgt : methodCountAll p.2 >
        methodCountAll (lookupCat (categorize_tests sw) p.1)
    · rw [if_pos hgt] at hfp
      have heq := Option.some.inj hfp
      subst heq
      exact ⟨hgt, rfl⟩
    · rw [if_neg hgt] at hfp
      cases hfp

/-- C7 amended witness: the concrete zero-reference category produces the
enhancement entry with reference total 0, target total 1 and factor
`float('inf')`, and the membership characterization applies to it. -/
theorem zero_denominator_policy_witness :
    ((⟨"crypto", 0, 1, RatioVal.inf⟩ : EnhancementEntry) ∈
      (find_missing_coverage [("crypto/FooTests.swift", [])]
        [("Crypto/FooTests.cs", ["TestA"])]).c_sharp_enhancements) ∧
    ((⟨"crypto", 0, 1, RatioVal.inf⟩ : EnhancementEntry).csharp_tests >
      (⟨"crypto", 0, 1, RatioVal.inf⟩ : EnhancementEntry).swift_tests ∧
    (⟨"crypto", 0, 1, RatioVal.inf⟩ : EnhancementEntry).enhancement_factor =
      (if (⟨"crypto", 0, 1, RatioVal.inf⟩ : EnhancementEntry).swift_tests > 0 then
        RatioVal.val
          (((⟨"crypto", 0, 1, RatioVal.inf⟩ : EnhancementEntry).csharp_tests : ℚ) /
            ((⟨"crypto", 0, 1, RatioVal.inf⟩ : EnhancementEntry).swift_tests : ℚ))
      else RatioVal.inf)) :=
  ⟨by decide,
   zero_denominator_policy.2.1 [("crypto/FooTests.swift", [])]
     [("Crypto/FooTests.cs", ["TestA"])] ⟨"crypto", 0, 1, RatioVal.inf⟩ (by decide)⟩

end NeoUnity

namespace NeoUnity

/-- C8 counterexample: the category status check never tests per-file
counterparts — a category with reference files `FooTests` and `BarTests`
but only the target file `FooTests` (holding three methods) is
classified COMPLETE because the target method count is at least the
reference method count and target files exist, even though `BarTests`
has no target counterpart. -/
theorem category_complete_without_counterpart_cex :
    category_status [("a/FooTests.swift", ["t1"]), ("a/BarTests.swift", ["t2"])]
        [("A/FooTests.cs", ["T1", "T2", "T3"])] = "COMPLETE" ∧
    everyRefHasCounterpart [("a/FooTests.swift", ["t1"]), ("a/BarTests.swift", ["t2"])]
        [("A/FooTests.cs", ["T1", "T2", "T3"])] = false := by decide

/-- C8 amended: a category is COMPLETE exactly when it has at least one
target file and the target method count is at least the reference method
count (no per-file counterpart requirement is involved); it is MISSING
exactly when it has no target files; and PARTIAL exactly when target
files exist but their method count is below the reference count. -/
theorem category_status_characterization :
    ∀ (sw cs : List (String × List String)),
      (category_status sw cs = "COMPLETE" ↔
        cs ≠ [] ∧ methodCountAll cs ≥ methodCountAll sw) ∧
      (category_status sw cs = "MISSING" ↔ cs = []) ∧
      (category_status sw cs = "PARTIAL" ↔
        cs ≠ [] ∧ methodCountAll cs < methodCountAll sw) := by
  intro sw cs
  simp only [category_status]
  split_ifs with h1 h2
  · refine ⟨⟨fun _ => ⟨h1.2, h1.1⟩, fun _ => rfl⟩, ?_, ?_⟩
    · constructor
      · intro h
        exact absurd h (by decide)
      · intro h
        exact absurd h h1.2
    · constructor
      · intro h
        exact absurd h (by decide)
      · intro h
        exact absurd h.2 (not_lt.mpr h1.1)
  · refine ⟨?_, ⟨fun _ => h2, fun _ => rfl⟩, ?_⟩
    · constructor
      · intro h
        exact absurd h (by decide)
      · intro h
        exact absurd h2 h.1
    · constructor
      · intro h
        exact absurd h (by decide)
      · intro h
        exact absurd h2 h.1
  · have hne : cs ≠ [] := h2
    have hnge : ¬ methodCountAll cs ≥ methodCountAll sw := fun hge => h1 ⟨hge, hne⟩
    have hlt : methodCountAll cs < methodCountAll sw := not_le.mp hnge
    refine ⟨?_, ?_, ⟨fun _ => ⟨hne, hlt⟩, fun _ => rfl⟩⟩
    · constructor
      · intro h
        exact absurd h (by decide)
      · intro h
        exact absurd ⟨h.2, h.1⟩ h1
    · constructor
      · intro h
        exact absurd h (by decide)
      · intro h
        exact absurd h hne

/-- C9 counterexample: the file identifier is the stem with EVERY
occurrence of `Tests` removed (`str.replace`), not only a trailing
suffix — the reference file `crypto/TestsAccount.swift` gets identifier
`Account` and therefore matches the target stem of
`Crypto/AccountTests.cs`, so the code reports nothing missing, while the
claim's suffix-stripped identifiers would report `TestsAccount` missing. -/
theorem missing_file_replace_vs_suffix_cex :
    (find_missing_coverage [("crypto/TestsAccount.swift", ["testA"])]
        [("Crypto/AccountTests.cs", ["TestA"])]).missing_files = [] ∧
    missingStemsSuffixSpec [("crypto/TestsAccount.swift", ["testA"])]
        [("Crypto/AccountTests.cs", ["TestA"])] = ["TestsAccount"] ∧
    stemId "crypto/TestsAccount.swift" = "Account" ∧
    stemIdSuffixSpec "crypto/TestsAccount.swift" = "TestsAccount" := by decide

/-- C9 amended: within a category present on both sides, missing-file
detection compares the two sides' identifiers as sets, where each
identifier is the file stem with every occurrence of `Tests` removed
(Python `str.replace`, not a suffix strip), and a stem is missing
exactly when it is a reference identifier that is no target identifier;
a genuinely absent reference file is reported with its method list. -/
theorem missing_stems_characterization :
    (∀ (sw cs : List (String × List String)) (s : String),
      s ∈ missingStemsFor sw cs ↔
        s ∈ sw.map (fun f => stemId f.1) ∧ ¬ s ∈ cs.map (fun f => stemId f.1)) ∧
    (find_missing_coverage
        [("crypto/FooTests.swift", ["testA"]), ("crypto/BarTests.swift", ["testB"])]
        [("Crypto/FooTests.cs", ["TestA"])]).missing_files =
      [⟨"crypto", "crypto/BarTests.swift", 1, ["testB"]⟩] := by
  constructor
  · intro sw cs s
    simp only [missingStemsFor]
    rw [List.mem_filter, mem_firstUniq]
    simp [List.contains, List.elem_iff]
  · decide

/-- C10: the extra-target list is computed by name membership, not record
identity — a target record is extra exactly when it occurs in the target
list and its name string differs from every matched target's name; with
two same-named targets of which one is matched, neither is extra, so
matched plus extra records number fewer than the target total. -/
theorem extra_by_name_membership :
    (∀ (swift cs : List MethodRecord) (c : MethodRecord),
      c ∈ (analyze_file_pair swift cs).extra_csharp ↔
        c ∈ cs ∧ ∀ e ∈ (analyze_file_pair swift cs).matched_methods,
          e.csharp.name ≠ c.name) ∧
    ((analyze_file_pair [⟨"testA", 1⟩] [⟨"TestA", 5⟩, ⟨"TestA", 9⟩]).matched_methods.length = 1 ∧
     (analyze_file_pair [⟨"testA", 1⟩] [⟨"TestA", 5⟩, ⟨"TestA", 9⟩]).extra_csharp = [] ∧
     (analyze_file_pair [⟨"testA", 1⟩] [⟨"TestA", 5⟩, ⟨"TestA", 9⟩]).matched_methods.length +
       (analyze_file_pair [⟨"testA", 1⟩] [⟨"TestA", 5⟩, ⟨"TestA", 9⟩]).extra_csharp.length < 2) := by
  constructor
  · intro swift cs c
    show c ∈ cs.filter (fun x =>
        !(((matchLoop cs swift).1.map (fun e => e.csharp.name)).contains x.name)) ↔ _
    rw [List.mem_filter]
    apply and_congr_right
    intro _
    rw [Bool.not_eq_true']
    constructor
    · intro hfalse e he heq
      have hmem : c.name ∈ (matchLoop cs swift).1.map (fun e => e.csharp.name) :=
        List.mem_map.mpr ⟨e, he, heq⟩
      have hc : ((matchLoop cs swift).1.map (fun e => e.csharp.name)).contains c.name
          = true := List.elem_iff.mpr hmem
      rw [hc] at hfalse
      cases hfalse
    · intro hall
      cases hb : ((matchLoop cs swift).1.map (fun e => e.csharp.name)).contains c.name
      · rfl
      · have hmem := List.elem_iff.mp hb
        rcases List.mem_map.mp hmem with ⟨e, he, heq⟩
        exact absurd heq (hall e he)
  · decide

end NeoUnity
